import Mathlib

/-!
Verification of the anpass polynomial-fitting pipeline (`src/lib.rs`).

The numeric scalar type `f64` is modelled by `ℚ`; machine integers (`i32`
exponents, `usize` indices) by `ℤ` and `ℕ`.  `nalgebra` matrices and vectors
become `Matrix (Fin _) (Fin _) ℚ` and `Fin _ → ℚ`.  Panics (`panic!`,
`expect`, out-of-bounds indexing) become `Except String _` / `Option _`
failure values.  External library calls are modelled at their documented
contract: `Cholesky::new` succeeds exactly when the sequential pivot
elimination keeps all pivots positive (`cholOk` below), `Cholesky::inverse`
returns the matrix inverse, and `Matrix::eigenvalues` is passed in as an
oracle argument `eig`.
-/

/-- conversion factor for force constants written out in fort.9903
(`FAC = 4.359813653` in the source) -/
def FAC : ℚ := 4359813653 / 10 ^ 9

/-- threshold for considering an element of the gradient or Hessian to be
zero (`THR = 1e-10` in the source) -/
def THR : ℚ := 1 / 10 ^ 10

/-- the `Bias` struct: a displacement vector paired with an energy -/
structure Bias (V : ℕ) where
  disp : Fin V → ℚ
  energy : ℚ

/-- the `Anpass` struct: `R` displacement rows of width `V`, `R` energies,
a `V × U` exponent table, and an optional bias point -/
structure Anpass (R V U : ℕ) where
  disps : Matrix (Fin R) (Fin V) ℚ
  energies : Fin R → ℚ
  exponents : Matrix (Fin V) (Fin U) ℤ
  bias : Option (Bias V)

/-- `Anpass::grad`: gradient of the polynomial described by `coeffs` and
`self.exponents` at the point `x`.  The inner `for k` loop that multiplies
the remaining-variable powers into `coj` is rendered as a guarded product
over `Fin V`; the `continue` on a sub-threshold scaled coefficient is the
`if |coj| < THR then 0` branch. -/
def Anpass.grad {R V U : ℕ} (a : Anpass R V U) (x : Fin V → ℚ)
    (coeffs : Fin U → ℚ) : Fin V → ℚ := fun i =>
  ∑ j : Fin U,
    (let fij := a.exponents i j
     let coj := coeffs j * (fij : ℚ)
     if |coj| < THR then 0
     else
       (if fij ≠ 1 then coj * x i ^ (fij - 1) else coj) *
         ∏ k : Fin V,
           if k ≠ i ∧ a.exponents k j ≠ 0 then x k ^ a.exponents k j else 1)

/-- The gradient formula as the specification states it: component `i` is
the sum over basis columns `k` of
`c[k]·e[i,k]·x[i]^(e[i,k]-1)·Π_{j≠i} x[j]^e[j,k]`, with terms whose scaled
coefficient `c[k]·e[i,k]` has magnitude below the threshold skipped. -/
def gradFormula {R V U : ℕ} (a : Anpass R V U) (x : Fin V → ℚ)
    (coeffs : Fin U → ℚ) : Fin V → ℚ := fun i =>
  ∑ j : Fin U,
    if |coeffs j * (a.exponents i j : ℚ)| < THR then 0
    else
      coeffs j * (a.exponents i j : ℚ) * x i ^ (a.exponents i j - 1) *
        ∏ k ∈ Finset.univ.erase i, x k ^ a.exponents k j

lemma prod_guard_erase {V : ℕ} (i : Fin V) (f : Fin V → ℤ) (x : Fin V → ℚ) :
    (∏ k : Fin V, if k ≠ i ∧ f k ≠ 0 then x k ^ f k else 1) =
      ∏ k ∈ Finset.univ.erase i, x k ^ f k := by
  rw [← Finset.prod_filter]
  refine Finset.prod_subset ?_ ?_
  · intro k hk
    rw [Finset.mem_filter] at hk
    exact Finset.mem_erase.mpr ⟨hk.2.1, Finset.mem_univ k⟩
  · intro k hk hnk
    rw [Finset.mem_erase] at hk
    rw [Finset.mem_filter] at hnk
    push_neg at hnk
    have hf : f k = 0 := hnk (Finset.mem_univ k) hk.1
    rw [hf, zpow_zero]

/-- C3: `grad` computes exactly the specified gradient formula: the
sub-threshold skip happens before any power is evaluated, terms with a zero
exponent on variable `i` contribute zero (their scaled coefficient is zero,
so they are skipped and no negative power is formed), and the
exponent-reduction branch taken only when `e[i,k] ≠ 1` does not change the
result since `x[i]^0 = 1`. -/
theorem grad_matches_formula {R V U : ℕ} (a : Anpass R V U) (x : Fin V → ℚ)
    (coeffs : Fin U → ℚ) : a.grad x coeffs = gradFormula a x coeffs := by
  funext i
  unfold Anpass.grad gradFormula
  refine Finset.sum_congr rfl fun j _ => ?_
  simp only []
  by_cases h : |coeffs j * (a.exponents i j : ℚ)| < THR
  · rw [if_pos h, if_pos h]
  · rw [if_neg h, if_neg h, prod_guard_erase]
    by_cases h1 : a.exponents i j = 1
    · rw [if_neg (by simp [h1]), h1]
      norm_num
    · rw [if_pos h1, mul_assoc]

/-- One off-diagonal Hessian entry sum, for row `i` and column `l` of the
lower triangle (`i ≠ l`), exactly as computed by the `i != l` branch of
`Anpass::hess`. -/
def Anpass.hessOff {R V U : ℕ} (a : Anpass R V U) (x : Fin V → ℚ)
    (coeffs : Fin U → ℚ) (i l : Fin V) : ℚ :=
  ∑ j : Fin U,
    (let eij := a.exponents i j
     let elj := a.exponents l j
     let coj := coeffs j * ((eij : ℚ) * (elj : ℚ))
     if |coj| < THR then 0
     else
       (let c2 := if eij ≠ 1 then coj * x i ^ (eij - 1) else coj
        let c3 := if elj ≠ 1 then c2 * x l ^ (elj - 1) else c2
        c3 * ∏ k : Fin V,
          if k ≠ i ∧ k ≠ l ∧ a.exponents k j ≠ 0 then x k ^ a.exponents k j
          else 1))

/-- One diagonal Hessian entry sum, exactly as computed by the `i == l`
branch of `Anpass::hess`. -/
def Anpass.hessDiag {R V U : ℕ} (a : Anpass R V U) (x : Fin V → ℚ)
    (coeffs : Fin U → ℚ) (i : Fin V) : ℚ :=
  ∑ j : Fin U,
    (let eij := a.exponents i j
     let coj := coeffs j * ((eij : ℚ) * ((eij : ℚ) - 1))
     if |coj| < THR then 0
     else
       (let c2 := if eij ≠ 2 then coj * x i ^ (eij - 2) else coj
        c2 * ∏ k : Fin V,
          if k ≠ i ∧ a.exponents k j ≠ 0 then x k ^ a.exponents k j else 1))

/-- `Anpass::hess`: the source loops over the lower triangle (`l ≤ i`),
stores `hessOff i l` at both `(i,l)` and `(l,i)`, and `hessDiag i` on the
diagonal; an entry above the diagonal therefore holds the mirrored value
computed from its transposed position. -/
def Anpass.hess {R V U : ℕ} (a : Anpass R V U) (x : Fin V → ℚ)
    (coeffs : Fin U → ℚ) : Matrix (Fin V) (Fin V) ℚ :=
  Matrix.of fun i l =>
    if i = l then a.hessDiag x coeffs i
    else if (l : ℕ) < (i : ℕ) then a.hessOff x coeffs i l
    else a.hessOff x coeffs l i

/-- The Hessian entries as the specification states them.  Off-diagonal
`(i,l)`, `i ≠ l`: `Σ_k c[k]·e[i,k]·e[l,k]·x[i]^(e[i,k]-1)·x[l]^(e[l,k]-1)·
Π_{j∉{i,l}} x[j]^e[j,k]`; diagonal `(i,i)`:
`Σ_k c[k]·e[i,k]·(e[i,k]-1)·x[i]^(e[i,k]-2)·Π_{j≠i} x[j]^e[j,k]`; terms
whose scaled coefficient is below the threshold are dropped entirely. -/
def hessFormula {R V U : ℕ} (a : Anpass R V U) (x : Fin V → ℚ)
    (coeffs : Fin U → ℚ) (i l : Fin V) : ℚ :=
  if i = l then
    ∑ j : Fin U,
      if |coeffs j * ((a.exponents i j : ℚ) * ((a.exponents i j : ℚ) - 1))|
          < THR then 0
      else
        coeffs j * (a.exponents i j : ℚ) * ((a.exponents i j : ℚ) - 1) *
          x i ^ (a.exponents i j - 2) *
          ∏ k ∈ Finset.univ.erase i, x k ^ a.exponents k j
  else
    ∑ j : Fin U,
      if |coeffs j * ((a.exponents i j : ℚ) * (a.exponents l j : ℚ))|
          < THR then 0
      else
        coeffs j * (a.exponents i j : ℚ) * (a.exponents l j : ℚ) *
          x i ^ (a.exponents i j - 1) * x l ^ (a.exponents l j - 1) *
          ∏ k ∈ (Finset.univ.erase i).erase l, x k ^ a.exponents k j

lemma prod_guard_erase2 {V : ℕ} (i l : Fin V) (f : Fin V → ℤ)
    (x : Fin V → ℚ) :
    (∏ k : Fin V, if k ≠ i ∧ k ≠ l ∧ f k ≠ 0 then x k ^ f k else 1) =
      ∏ k ∈ (Finset.univ.erase i).erase l, x k ^ f k := by
  rw [← Finset.prod_filter]
  refine Finset.prod_subset ?_ ?_
  · intro k hk
    rw [Finset.mem_filter] at hk
    exact Finset.mem_erase.mpr
      ⟨hk.2.2.1, Finset.mem_erase.mpr ⟨hk.2.1, Finset.mem_univ k⟩⟩
  · intro k hk hnk
    rw [Finset.mem_erase, Finset.mem_erase] at hk
    rw [Finset.mem_filter] at hnk
    push_neg at hnk
    have hf : f k = 0 := hnk (Finset.mem_univ k) hk.2.1 hk.1
    rw [hf, zpow_zero]

lemma hessOff_eq_formula {R V U : ℕ} (a : Anpass R V U) (x : Fin V → ℚ)
    (coeffs : Fin U → ℚ) (i l : Fin V) (hil : i ≠ l) :
    a.hessOff x coeffs i l = hessFormula a x coeffs i l := by
  unfold Anpass.hessOff hessFormula
  rw [if_neg hil]
  refine Finset.sum_congr rfl fun j _ => ?_
  simp only []
  by_cases h :
      |coeffs j * ((a.exponents i j : ℚ) * (a.exponents l j : ℚ))| < THR
  · rw [if_pos h, if_pos h]
  · rw [if_neg h, if_neg h, prod_guard_erase2]
    by_cases h1 : a.exponents i j = 1 <;>
      by_cases h2 : a.exponents l j = 1 <;>
      simp [h1, h2, mul_assoc]

lemma hessDiag_eq_formula {R V U : ℕ} (a : Anpass R V U) (x : Fin V → ℚ)
    (coeffs : Fin U → ℚ) (i : Fin V) :
    a.hessDiag x coeffs i = hessFormula a x coeffs i i := by
  unfold Anpass.hessDiag hessFormula
  rw [if_pos rfl]
  refine Finset.sum_congr rfl fun j _ => ?_
  simp only []
  by_cases h :
      |coeffs j * ((a.exponents i j : ℚ) * ((a.exponents i j : ℚ) - 1))|
        < THR
  · rw [if_pos h, if_pos h]
  · rw [if_neg h, if_neg h, prod_guard_erase]
    by_cases h2 : a.exponents i j = 2
    · rw [if_neg (by simp [h2]), h2]
      norm_num
    · rw [if_pos h2]
      ring

lemma finset_erase_erase_comm {α : Type} [DecidableEq α] (s : Finset α)
    (a b : α) : (s.erase a).erase b = (s.erase b).erase a := by
  ext k
  simp only [Finset.mem_erase]
  tauto

lemma hessFormula_symm {R V U : ℕ} (a : Anpass R V U) (x : Fin V → ℚ)
    (coeffs : Fin U → ℚ) (i l : Fin V) :
    hessFormula a x coeffs i l = hessFormula a x coeffs l i := by
  by_cases hil : i = l
  · rw [hil]
  · unfold hessFormula
    rw [if_neg hil, if_neg (Ne.symm hil)]
    refine Finset.sum_congr rfl fun j _ => ?_
    rw [finset_erase_erase_comm]
    rw [mul_comm (a.exponents i j : ℚ) (a.exponents l j : ℚ)]
    by_cases h :
        |coeffs j * ((a.exponents l j : ℚ) * (a.exponents i j : ℚ))| < THR
    · rw [if_pos h, if_pos h]
    · rw [if_neg h, if_neg h]
      ring

/-- C2: the matrix returned by `hess` is symmetric (the lower triangle is
computed and mirrored upward) and every entry matches the specified
formula: off-diagonal `(i,l)` is
`Σ_k c[k]·e[i,k]·e[l,k]·x[i]^(e[i,k]-1)·x[l]^(e[l,k]-1)·Π_{j∉{i,l}}
x[j]^e[j,k]` and diagonal `(i,i)` is
`Σ_k c[k]·e[i,k]·(e[i,k]-1)·x[i]^(e[i,k]-2)·Π_{j≠i} x[j]^e[j,k]`, where a
term whose scaled coefficient has magnitude below `1e-10` is dropped, a
zero exponent contributes the factor `1` rather than a negative power, and
a diagonal term with `e[i,k] ∈ {0,1}` has scaled coefficient zero and so
vanishes. -/
theorem hess_matches_formula {R V U : ℕ} (a : Anpass R V U) (x : Fin V → ℚ)
    (coeffs : Fin U → ℚ) :
    (∀ i l, a.hess x coeffs i l = hessFormula a x coeffs i l) ∧
      (a.hess x coeffs).transpose = a.hess x coeffs := by
  have key : ∀ i l, a.hess x coeffs i l = hessFormula a x coeffs i l := by
    intro i l
    unfold Anpass.hess
    by_cases hil : i = l
    · rw [hil]
      simp only [Matrix.of_apply, if_pos rfl]
      exact hessDiag_eq_formula a x coeffs l
    · simp only [Matrix.of_apply, if_neg hil]
      by_cases hlt : (l : ℕ) < (i : ℕ)
    
      · rw [if_pos hlt]
        exact hessOff_eq_formula a x coeffs i l hil
      · rw [if_neg hlt]
        rw [hessOff_eq_formula a x coeffs l i (Ne.symm hil)]
        exact hessFormula_symm a x coeffs l i
  refine ⟨key, ?_⟩
  ext i l
  rw [Matrix.transpose_apply, key, key, hessFormula_symm]

/-- Model of `nalgebra::Cholesky::new`: the sequential elimination the
library performs succeeds exactly when every pivot stays strictly
positive; each step divides out the current pivot and recurses on the
Schur complement of the trailing block. -/
def cholOk : (n : ℕ) → Matrix (Fin n) (Fin n) ℚ → Bool
  | 0, _ => true
  | n + 1, A =>
    decide (0 < A 0 0) &&
      cholOk n (Matrix.of fun i j : Fin n =>
        A i.succ j.succ - A i.succ 0 * A 0 j.succ / A 0 0)

/-- The design matrix built by the first loop nest of `Anpass::fit`:
entry `(i,k)` starts at `1.0` and is multiplied by
`disps[i,j]^exponents[j,k]` for every variable `j` (so a zero exponent
contributes `0^0 = 1` even at a zero displacement). -/
def Anpass.designMatrix {R V U : ℕ} (a : Anpass R V U) :
    Matrix (Fin R) (Fin U) ℚ :=
  Matrix.of fun i k => ∏ j : Fin V, a.disps i j ^ a.exponents j k

/-- Computable matrix inverse over `ℚ` (for a singular matrix it returns
the zero matrix, exactly as Mathlib's noncomputable `Inv` does); the model
of `Cholesky::inverse`, which returns the inverse of the factored
matrix. -/
def matInv {n : ℕ} (A : Matrix (Fin n) (Fin n) ℚ) :
    Matrix (Fin n) (Fin n) ℚ :=
  A.det⁻¹ • A.adjugate

lemma matInv_eq_inv {n : ℕ} (A : Matrix (Fin n) (Fin n) ℚ) :
    matInv A = A⁻¹ := by
  rw [Matrix.inv_def, Ring.inverse_eq_inv, matInv]

/-- `Anpass::fit`: form the design matrix, Cholesky-factor the
normal-equations matrix (failure is the `expect` panic), invert it, and
apply to `Xᵀ · energies`. -/
def Anpass.fit {R V U : ℕ} (a : Anpass R V U) :
    Except String ((Fin U → ℚ) × Matrix (Fin R) (Fin U) ℚ) :=
  let x := a.designMatrix
  let xtx := x.transpose * x
  if cholOk U xtx then
    Except.ok (Matrix.mulVec (matInv xtx * x.transpose) a.energies, x)
  else Except.error "Cholesky decomposition failed in `fit`"

/-- C4: when the normal-equations matrix `XᵀX` admits the Cholesky
factorization (the model of positive definiteness used by the library
call), `fit` returns the least-squares coefficients
`(XᵀX)⁻¹ · Xᵀ · energies` together with the design matrix `X` itself,
whose entry `(i,k)` is `Π_j disps[i,j]^exponents[j,k]` with `0^0 = 1`. -/
theorem fit_solves_normal_equations {R V U : ℕ} (a : Anpass R V U)
    (h : cholOk U (a.designMatrix.transpose * a.designMatrix) = true) :
    a.fit =
      Except.ok
        (Matrix.mulVec
          ((a.designMatrix.transpose * a.designMatrix)⁻¹ *
            a.designMatrix.transpose) a.energies, a.designMatrix) ∧
      (∀ i k, a.designMatrix i k = ∏ j : Fin V, a.disps i j ^ a.exponents j k)
      ∧ (0 : ℚ) ^ (0 : ℤ) = 1 := by
  refine ⟨?_, fun i k => rfl, zpow_zero 0⟩
  unfold Anpass.fit
  simp only [h, if_true, matInv_eq_inv]

/-- C7: `fit` fails with the decomposition error exactly when the
Cholesky factorization of `XᵀX` does not exist (pivot elimination hits a
non-positive pivot, the model of a non-positive-definite matrix), and in
exactly the complementary case it returns a coefficient vector. -/
theorem fit_fails_iff_not_posdef {R V U : ℕ} (a : Anpass R V U) :
    (a.fit = Except.error "Cholesky decomposition failed in `fit`" ↔
      cholOk U (a.designMatrix.transpose * a.designMatrix) = false) ∧
    ((∃ p, a.fit = Except.ok p) ↔
      cholOk U (a.designMatrix.transpose * a.designMatrix) = true) := by
  cases hc : cholOk U (a.designMatrix.transpose * a.designMatrix) <;>
    simp [Anpass.fit, hc]

/-- the `StatKind` enum classifying a stationary point -/
inductive StatKind
  | Max
  | Min
  | Stat
deriving DecidableEq

/-- The eigenvalue-sign fold of `Anpass::characterize`: each strictly
negative eigenvalue contributes `-1`, each strictly positive `+1`, a zero
eigenvalue `0`, accumulated left-to-right from `0`. -/
def signCount (evals : List ℚ) : ℤ :=
  evals.foldl
    (fun acc v => if v < 0 then acc - 1 else if 0 < v then acc + 1 else acc)
    0

/-- The classification step of `Anpass::characterize`, applied to the
eigenvalues returned by the library call: sum of signs `= -dim` is a
maximum, `= dim` a minimum, and anything else a generic stationary
point. -/
def statKindOf (evals : List ℚ) : StatKind :=
  let prod := signCount evals
  let l : ℤ := evals.length
  if prod = -l then StatKind.Max
  else if prod = l then StatKind.Min
  else StatKind.Stat

/-- `Anpass::characterize`: the `eig` oracle models
`nalgebra::DMatrix::eigenvalues`; its `None` answer hits the `expect`
panic (message preserved, typo included), otherwise the sign fold
classifies the point. -/
def characterize {V : ℕ}
    (eig : Matrix (Fin V) (Fin V) ℚ → Option (List ℚ))
    (hess : Matrix (Fin V) (Fin V) ℚ) : Except String StatKind :=
  match eig hess with
  | none => Except.error "eigendcomposition failed in `newton`"
  | some evals => Except.ok (statKindOf evals)

/-- the Newton step-size convergence threshold `1.1e-8` -/
def NEWTON_TOL : ℚ := 11 / 10 ^ 9

/-- The loop body of `Anpass::newton`, with the remaining iteration count
as explicit fuel.  Each pass evaluates the gradient and Hessian at the
current `x`, gives up (the `panic!`) when the Cholesky factorization of
the Hessian fails, otherwise forms the damped step
`delta = 0.5 · H⁻¹ · grad`, returns the current `x` with its
classification when every component of `delta` is `≤ 1.1e-8`, and
otherwise recurses on `x - delta`; exhausted fuel is the
"too many Newton iterations" panic. -/
def Anpass.newtonGo {R V U : ℕ} (a : Anpass R V U) (coeffs : Fin U → ℚ)
    (eig : Matrix (Fin V) (Fin V) ℚ → Option (List ℚ)) :
    ℕ → (Fin V → ℚ) → Except String ((Fin V → ℚ) × StatKind)
  | 0, _ => Except.error "too many Newton iterations"
  | n + 1, x =>
    let g := a.grad x coeffs
    let hess := a.hess x coeffs
    if cholOk V hess then
      let delta := (1 / 2 : ℚ) • Matrix.mulVec (matInv hess) g
      if ∀ i, delta i ≤ NEWTON_TOL then
        Except.map (fun k => (x, k)) (characterize eig hess)
      else a.newtonGo coeffs eig n (fun i => x i - delta i)
    else Except.error "Cholesky decomposition failed in `newton`"

/-- `Anpass::newton`: at most `MAXIT = 100` iterations starting from the
zero vector. -/
def Anpass.newton {R V U : ℕ} (a : Anpass R V U) (coeffs : Fin U → ℚ)
    (eig : Matrix (Fin V) (Fin V) ℚ → Option (List ℚ)) :
    Except String ((Fin V → ℚ) × StatKind) :=
  a.newtonGo coeffs eig 100 (fun _ => 0)

/-- C1: `newton` starts from the zero vector of length `M` with an
iteration budget of exactly 100; a run that exhausts the budget fails
with "too many Newton iterations" and returns no partial result; and each
iteration computes the gradient and Hessian at the current `x`,
Cholesky-factors the Hessian (failing fatally otherwise), forms the
damped step `delta = 0.5 · H⁻¹ · grad`, returns the current `x` — the
step not applied — exactly when every component of `delta` is `≤ 1.1e-8`
(a one-sided comparison that accepts arbitrarily negative components),
and otherwise continues from `x - delta`. -/
theorem newton_iteration_structure {R V U : ℕ} (a : Anpass R V U)
    (coeffs : Fin U → ℚ)
    (eig : Matrix (Fin V) (Fin V) ℚ → Option (List ℚ)) :
    a.newton coeffs eig = a.newtonGo coeffs eig 100 (fun _ => 0) ∧
    (∀ x, a.newtonGo coeffs eig 0 x =
      Except.error "too many Newton iterations") ∧
    (∀ n x,
      a.newtonGo coeffs eig (n + 1) x =
        if cholOk V (a.hess x coeffs) then
          if ∀ i, ((1 / 2 : ℚ) •
              Matrix.mulVec (a.hess x coeffs)⁻¹ (a.grad x coeffs)) i ≤
                11 / 10 ^ 9 then
            Except.map (fun k => (x, k)) (characterize eig (a.hess x coeffs))
          else
            a.newtonGo coeffs eig n
              (fun i => x i -
                ((1 / 2 : ℚ) •
                  Matrix.mulVec (a.hess x coeffs)⁻¹ (a.grad x coeffs)) i)
        else Except.error "Cholesky decomposition failed in `newton`") := by
  refine ⟨rfl, fun x => rfl, fun n x => ?_⟩
  rw [Anpass.newtonGo]
  simp only [matInv_eq_inv, NEWTON_TOL]

/-- C6 counterexample: the claim as stated fails on the empty eigenvalue
list (a 0×0 Hessian): the sign sum `0` equals plus the dimension `0`, so
the claim demands `Min`, yet the `sum = -dim` test is checked first and
`0 = -0` holds, so the code returns `Max`. -/
theorem statKindOf_empty_counterexample :
    statKindOf [] = StatKind.Max ∧
      signCount [] = ((([] : List ℚ).length : ℤ)) ∧
      statKindOf [] ≠ StatKind.Min := by
  refine ⟨rfl, rfl, ?_⟩
  intro h
  cases h

/-- C6 (amended): for every Hessian whose eigenvalue computation
succeeds, `characterize` folds the eigenvalue signs (`-1` strictly
negative, `+1` strictly positive, `0` otherwise) into a sum, and
classifies the point as `Max` exactly when the sum equals minus the
dimension, `Min` exactly when it equals plus the dimension while not
equalling minus the dimension (the two coincide only for dimension zero,
where `Max` wins), and `Stat` in every other case. -/
theorem characterize_classifies {V : ℕ}
    (eig : Matrix (Fin V) (Fin V) ℚ → Option (List ℚ))
    (hess : Matrix (Fin V) (Fin V) ℚ) (evals : List ℚ)
    (h : eig hess = some evals) :
    characterize eig hess = Except.ok (statKindOf evals) ∧
    signCount evals =
      (evals.map fun v =>
        if v < 0 then (-1 : ℤ) else if 0 < v then 1 else 0).sum ∧
    (statKindOf evals = StatKind.Max ↔
      signCount evals = -(evals.length : ℤ)) ∧
    (statKindOf evals = StatKind.Min ↔
      signCount evals = (evals.length : ℤ) ∧
        signCount evals ≠ -(evals.length : ℤ)) ∧
    (statKindOf evals = StatKind.Stat ↔
      signCount evals ≠ -(evals.length : ℤ) ∧
        signCount evals ≠ (evals.length : ℤ)) := by
  have fold_eq : ∀ (l : List ℚ) (acc : ℤ),
      l.foldl
        (fun acc v =>
          if v < 0 then acc - 1 else if 0 < v then acc + 1 else acc) acc =
        acc + (l.map fun v =>
          if v < 0 then (-1 : ℤ) else if 0 < v then 1 else 0).sum := by
    intro l
    induction l with
    | nil => intro acc; simp
    | cons v t ih =>
      intro acc
      simp only [List.foldl_cons, List.map_cons, List.sum_cons, ih]
      by_cases hv : v < 0
      · simp [hv]
        ring
      · by_cases hv2 : 0 < v
        · simp [hv, hv2]
          ring
        · simp [hv, hv2]
  constructor
  · unfold characterize
    rw [h]
  refine ⟨by simpa using fold_eq evals 0, ?_, ?_, ?_⟩ <;>
    · unfold statKindOf
      simp only []
      split_ifs with h1 h2 <;> simp_all

/-- `Anpass::bias` (the method; named `biasApply` here because the struct
field is already called `bias`): rebuild the displacement matrix with the
bias displacement subtracted from every row and the bias energy
subtracted from every energy, carrying every other field over from
`self` via the `..self.clone()` struct update, which in particular keeps
the original optional `bias` field. -/
def Anpass.biasApply {R V U : ℕ} (a : Anpass R V U) (b : Bias V) :
    Anpass R V U where
  disps := Matrix.of fun r c => a.disps r c - b.disp c
  energies := fun r => a.energies r - b.energy
  exponents := a.exponents
  bias := a.bias

/-- C8: `bias` derives a fresh `Anpass` whose displacement rows are the
original rows minus the bias displacement component-wise and whose
energies are the original energies minus the bias energy, with the
exponent table carried over unchanged; the original value is untouched —
the embedding is a pure function of `a`, which remains available
unchanged. -/
theorem biasApply_recenters {R V U : ℕ} (a : Anpass R V U) (b : Bias V) :
    (∀ r c, (a.biasApply b).disps r c = a.disps r c - b.disp c) ∧
    (∀ r, (a.biasApply b).energies r = a.energies r - b.energy) ∧
    (a.biasApply b).exponents = a.exponents := by
  exact ⟨fun r c => rfl, fun r => rfl, rfl⟩

/-- C10: the recentered dataset keeps the original's stored optional
`bias` field — the applied bias point `b` is not recorded in the result —
and the exponent table is likewise identical; only displacements and
energies change. -/
theorem biasApply_keeps_bias_field {R V U : ℕ} (a : Anpass R V U)
    (b : Bias V) :
    (a.biasApply b).bias = a.bias ∧
      (a.biasApply b).exponents = a.exponents := by
  exact ⟨rfl, rfl⟩

/-- the `Fc` value object (its own module is out of scope): four variable
indices and the normalized force-constant value -/
structure Fc where
  i1 : ℕ
  i2 : ℕ
  i3 : ℕ
  i4 : ℕ
  val : ℚ
deriving DecidableEq

/-- the literal factorial lookup table `[1.0, 1.0, 2.0, 6.0, 24.0]` of
`Anpass::make9903` (an index outside `0..=4` panics in the source and is
guarded in `fcStep`) -/
def factTable : ℕ → ℚ
  | 0 => 1
  | 1 => 1
  | 2 => 2
  | 3 => 6
  | 4 => 24
  | _ => 0

/-- Write the values `vs` into the 4-slot buffer starting at slot `s`
(writes at or beyond slot 4 cannot happen on the guarded path; the guard
failure is modelled as the panic in `fcStep`). -/
def writeList : (Fin 4 → ℕ) → ℕ → List ℕ → (Fin 4 → ℕ)
  | buf, _, [] => buf
  | buf, s, v :: vs =>
    writeList (fun t => if (t : ℕ) = s then v else buf t) (s + 1) vs

/-- the per-column loop state of `Anpass::make9903`: the running factorial
accumulator `ifact`, the 4-slot index buffer `ictmp`, and the fill count
`iccount` -/
structure FcState where
  ifact : ℚ
  ictmp : Fin 4 → ℕ
  iccount : ℕ

/-- One pass of the inner `for j in (0..c).rev()` loop of
`Anpass::make9903` on variable `j`: multiply `ifact` by the factorial
table entry (a table index outside `0..=4` — a negative `i32` cast to
`usize`, or a value past the end — is the indexing panic, modelled as
`none`), then for a positive exponent write the 1-based variable index
`j+1` into the next `iexpo` buffer slots (a write past slot 3 is the
other indexing panic, modelled as `none`). -/
def fcStep {V : ℕ} (exps : Fin V → ℤ) (st : FcState) (j : Fin V) :
    Option FcState :=
  let iexpo := exps j
  if 0 ≤ iexpo ∧ iexpo ≤ 4 then
    let st1 : FcState := { st with ifact := st.ifact * factTable iexpo.toNat }
    if 0 < iexpo then
      if st1.iccount + iexpo.toNat ≤ 4 then
        some { st1 with
          ictmp := writeList st1.ictmp st1.iccount
            (List.replicate iexpo.toNat ((j : ℕ) + 1)),
          iccount := st1.iccount + iexpo.toNat }
      else none
    else some st1
  else none

/-- Run the inner loop of `Anpass::make9903` over the listed variable
indices, threading the state and propagating a panic. -/
def runColAux {V : ℕ} (exps : Fin V → ℤ) :
    FcState → List (Fin V) → Option FcState
  | st, [] => some st
  | st, j :: js =>
    match fcStep exps st j with
    | none => none
    | some st1 => runColAux exps st1 js

/-- The full inner loop for one basis column: variable indices in
descending order starting from `ifact = 1`, an all-zero buffer, and an
empty fill count. -/
def runColumn {V : ℕ} (exps : Fin V → ℤ) : Option FcState :=
  runColAux exps ⟨1, fun _ => 0, 0⟩ (List.finRange V).reverse

/-- The outer `for i in 0..r` loop of `Anpass::make9903`, collecting one
record per basis column and propagating a panic from any column. -/
def collectFcs {U : ℕ} (f : Fin U → Option Fc) :
    List (Fin U) → Option (List Fc)
  | [] => some []
  | i :: is =>
    match f i with
    | none => none
    | some fc => (collectFcs f is).map (fc :: ·)

/-- `Anpass::make9903`: one `Fc` record per basis column, in column
order; the record for column `i` packages the four buffer slots and
`coeffs[i] * ifact * FAC`. -/
def Anpass.make9903 {R V U : ℕ} (a : Anpass R V U) (coeffs : Fin U → ℚ) :
    Option (List Fc) :=
  collectFcs
    (fun i =>
      (runColumn (fun j => a.exponents j i)).map fun st =>
        ⟨st.ictmp 0, st.ictmp 1, st.ictmp 2, st.ictmp 3,
          coeffs i * st.ifact * FAC⟩)
    (List.finRange U)

/-- The index list a basis column should produce, per the specification:
traverse variable indices in descending order and let each variable `j`
contribute its 1-based index `j+1` repeated `e` times. -/
def fcColumnIndices {V : ℕ} (exps : Fin V → ℤ) : List ℕ :=
  (List.finRange V).reverse.flatMap fun j =>
    List.replicate (exps j).toNat ((j : ℕ) + 1)

/-- The factorial accumulator a basis column should produce, per the
specification: the product of the table values of the positive
exponents. -/
def fcColumnFact {V : ℕ} (exps : Fin V → ℤ) : ℚ :=
  ∏ j ∈ Finset.univ.filter (fun j => 0 < exps j), factTable (exps j).toNat

/-- The record a basis column should produce, per the specification: the
first four collected indices (unused slots zero) and
`coefficient × factorial accumulator × 4.359813653`. -/
def fcColumnRecord {V : ℕ} (exps : Fin V → ℤ) (c : ℚ) : Fc :=
  let L := fcColumnIndices exps
  ⟨L.getD 0 0, L.getD 1 0, L.getD 2 0, L.getD 3 0, c * fcColumnFact exps * FAC⟩

lemma writeList_append (A B : List ℕ) :
    ∀ (buf : Fin 4 → ℕ) (s : ℕ),
      writeList buf s (A ++ B) = writeList (writeList buf s A) (s + A.length) B := by
  induction A with
  | nil => intro buf s; simp [writeList]
  | cons v vs ih =>
    intro buf s
    have lhs : writeList buf s ((v :: vs) ++ B) =
        writeList (fun t => if (t : ℕ) = s then v else buf t) (s + 1)
          (vs ++ B) := rfl
    have rhs : writeList buf s (v :: vs) =
        writeList (fun t => if (t : ℕ) = s then v else buf t) (s + 1) vs :=
      rfl
    rw [lhs, rhs, ih, List.length_cons]
    have harith : s + 1 + vs.length = s + (vs.length + 1) := by omega
    rw [harith]

lemma writeList_read (L : List ℕ) :
    ∀ (buf : Fin 4 → ℕ) (s : ℕ) (t : Fin 4),
      writeList buf s L t =
        if s ≤ (t : ℕ) ∧ (t : ℕ) < s + L.length then L.getD ((t : ℕ) - s) 0
        else buf t := by
  induction L with
  | nil =>
    intro buf s t
    simp only [writeList, List.length_nil, Nat.add_zero]
    rw [if_neg (by omega)]
  | cons v vs ih =>
    intro buf s t
    simp only [writeList, List.length_cons, ih]
    by_cases hts : (t : ℕ) = s
    · have h1 : ¬(s + 1 ≤ (t : ℕ) ∧ (t : ℕ) < s + 1 + vs.length) := by omega
      have h2 : s ≤ (t : ℕ) ∧ (t : ℕ) < s + (vs.length + 1) := by omega
      rw [if_neg h1, if_pos h2, if_pos hts, hts, Nat.sub_self]
      rfl
    · by_cases h3 : s + 1 ≤ (t : ℕ) ∧ (t : ℕ) < s + 1 + vs.length
      · have h4 : s ≤ (t : ℕ) ∧ (t : ℕ) < s + (vs.length + 1) := by omega
        rw [if_pos h3, if_pos h4]
        have hsub : (t : ℕ) - s = ((t : ℕ) - (s + 1)) + 1 := by omega
        rw [hsub]
        rfl
      · have h5 : ¬(s ≤ (t : ℕ) ∧ (t : ℕ) < s + (vs.length + 1)) := by omega
        rw [if_neg h3, if_neg h5, if_neg hts]

/-- the flattened index contribution of the listed variables, in list
order -/
def flatOf {V : ℕ} (exps : Fin V → ℤ) (l : List (Fin V)) : List ℕ :=
  l.flatMap fun j => List.replicate (exps j).toNat ((j : ℕ) + 1)

/-- the factorial-table product of the listed variables, in list order -/
def factProd {V : ℕ} (exps : Fin V → ℤ) (l : List (Fin V)) : ℚ :=
  (l.map fun j => factTable (exps j).toNat).prod

lemma fcStep_pos {V : ℕ} (exps : Fin V → ℤ) (st : FcState) (j : Fin V)
    (hj : 0 ≤ exps j ∧ exps j ≤ 4) (hpos : 0 < exps j)
    (hcnt : st.iccount + (exps j).toNat ≤ 4) :
    fcStep exps st j =
      some ⟨st.ifact * factTable (exps j).toNat,
        writeList st.ictmp st.iccount
          (List.replicate (exps j).toNat ((j : ℕ) + 1)),
        st.iccount + (exps j).toNat⟩ := by
  unfold fcStep
  rw [if_pos hj]
  dsimp only
  rw [if_pos hpos, if_pos hcnt]

lemma fcStep_zero {V : ℕ} (exps : Fin V → ℤ) (st : FcState) (j : Fin V)
    (hj : 0 ≤ exps j ∧ exps j ≤ 4) (hpos : ¬0 < exps j) :
    fcStep exps st j =
      some ⟨st.ifact * factTable (exps j).toNat, st.ictmp, st.iccount⟩ := by
  unfold fcStep
  rw [if_pos hj]
  dsimp only
  rw [if_neg hpos]

lemma runColAux_ok {V : ℕ} (exps : Fin V → ℤ) (l : List (Fin V)) :
    ∀ st : FcState, (∀ j ∈ l, 0 ≤ exps j ∧ exps j ≤ 4) →
      st.iccount + (flatOf exps l).length ≤ 4 →
      runColAux exps st l =
        some ⟨st.ifact * factProd exps l,
          writeList st.ictmp st.iccount (flatOf exps l),
          st.iccount + (flatOf exps l).length⟩ := by
  induction l with
  | nil =>
    intro st _ _
    simp [runColAux, factProd, flatOf, writeList]
  | cons j t ih =>
    intro st hall hlen
    have hj := hall j (List.mem_cons_self j t)
    have htail := fun k hk => hall k (List.mem_cons_of_mem j hk)
    have hflat : flatOf exps (j :: t) =
        List.replicate (exps j).toNat ((j : ℕ) + 1) ++ flatOf exps t := by
      simp [flatOf]
    have hfact : factProd exps (j :: t) =
        factTable (exps j).toNat * factProd exps t := by
      simp [factProd]
    rw [hflat] at hlen ⊢
    simp only [List.length_append, List.length_replicate] at hlen
    rw [runColAux]
    by_cases hpos : 0 < exps j
    · rw [fcStep_pos exps st j hj hpos (by omega)]
      dsimp only
      rw [ih _ htail (by dsimp only; omega)]
      dsimp only
      rw [hfact]
      simp only [Option.some.injEq, FcState.mk.injEq]
      refine ⟨by ring, ?_, ?_⟩
      · rw [writeList_append]
        simp [List.length_replicate]
      · simp only [List.length_append, List.length_replicate]
        omega
    · have hz : exps j = 0 := le_antisymm (not_lt.mp hpos) hj.1
      rw [fcStep_zero exps st j hj hpos]
      dsimp only
      rw [ih _ htail (by dsimp only; omega)]
      have hrep : List.replicate (exps j).toNat ((j : ℕ) + 1) = [] := by
        rw [hz]; rfl
      rw [hrep, List.nil_append, hfact]
      dsimp only
      simp only [Option.some.injEq, FcState.mk.injEq]
      refine ⟨by ring, ?_⟩
      simp

lemma fcStep_none_of_bad {V : ℕ} (exps : Fin V → ℤ) (st : FcState)
    (j : Fin V) (h : ¬(0 ≤ exps j ∧ exps j ≤ 4)) :
    fcStep exps st j = none := by
  unfold fcStep
  rw [if_neg h]

lemma fcStep_none_of_overflow {V : ℕ} (exps : Fin V → ℤ) (st : FcState)
    (j : Fin V) (hj : 0 ≤ exps j ∧ exps j ≤ 4) (hpos : 0 < exps j)
    (hcnt : ¬(st.iccount + (exps j).toNat ≤ 4)) :
    fcStep exps st j = none := by
  unfold fcStep
  rw [if_pos hj]
  dsimp only
  rw [if_pos hpos, if_neg hcnt]

lemma runColAux_none_of_bad_entry {V : ℕ} (exps : Fin V → ℤ)
    (l : List (Fin V)) :
    ∀ st : FcState, (∃ j ∈ l, ¬(0 ≤ exps j ∧ exps j ≤ 4)) →
      runColAux exps st l = none := by
  induction l with
  | nil =>
    intro st h
    obtain ⟨j, hj, _⟩ := h
    cases hj
  | cons j t ih =>
    intro st h
    rw [runColAux]
    obtain ⟨j1, hj1, hbad⟩ := h
    rcases List.mem_cons.mp hj1 with heq | hmem
    · rw [heq] at hbad
      rw [fcStep_none_of_bad exps st j hbad]
    · cases hstep : fcStep exps st j with
      | none => rfl
      | some st1 =>
        dsimp only
        exact ih st1 ⟨j1, hmem, hbad⟩

lemma runColAux_none_of_overflow {V : ℕ} (exps : Fin V → ℤ)
    (l : List (Fin V)) :
    ∀ st : FcState, (∀ j ∈ l, 0 ≤ exps j) → st.iccount ≤ 4 →
      4 < st.iccount + (flatOf exps l).length →
      runColAux exps st l = none := by
  induction l with
  | nil =>
    intro st _ h4 hover
    simp [flatOf] at hover
    omega
  | cons j t ih =>
    intro st hall h4 hover
    have hj0 : 0 ≤ exps j := hall j (List.mem_cons_self j t)
    have htail := fun k hk => hall k (List.mem_cons_of_mem j hk)
    have hflat : flatOf exps (j :: t) =
        List.replicate (exps j).toNat ((j : ℕ) + 1) ++ flatOf exps t := by
      simp [flatOf]
    rw [hflat, List.length_append, List.length_replicate] at hover
    rw [runColAux]
    by_cases hle : exps j ≤ 4
    · by_cases hpos : 0 < exps j
      · by_cases hcnt : st.iccount + (exps j).toNat ≤ 4
        · rw [fcStep_pos exps st j ⟨hj0, hle⟩ hpos hcnt]
          dsimp only
          refine ih _ htail ?_ ?_
          · dsimp only
            omega
          · dsimp only
            omega
        · rw [fcStep_none_of_overflow exps st j ⟨hj0, hle⟩ hpos hcnt]
      · have hz : exps j = 0 := le_antisymm (not_lt.mp hpos) hj0
        rw [fcStep_zero exps st j ⟨hj0, hle⟩ hpos]
        dsimp only
        refine ih _ htail ?_ ?_
        · dsimp only
          exact h4
        · dsimp only
          have hzt : (exps j).toNat = 0 := by omega
          omega
    · rw [fcStep_none_of_bad exps st j (by tauto)]

lemma collectFcs_all_some {U : ℕ} (f : Fin U → Option Fc) (g : Fin U → Fc)
    (l : List (Fin U)) (h : ∀ i ∈ l, f i = some (g i)) :
    collectFcs f l = some (l.map g) := by
  induction l with
  | nil => rfl
  | cons i t ih =>
    rw [collectFcs, h i (List.mem_cons_self i t),
      ih fun k hk => h k (List.mem_cons_of_mem i hk)]
    rfl

lemma collectFcs_none {U : ℕ} (f : Fin U → Option Fc) (l : List (Fin U)) :
    ∀ i ∈ l, f i = none → collectFcs f l = none := by
  induction l with
  | nil => intro i hi; cases hi
  | cons a t ih =>
    intro i hi hnone
    rw [collectFcs]
    rcases List.mem_cons.mp hi with heq | hmem
    · rw [← heq, hnone]
    · cases hstep : f a with
      | none => rfl
      | some fc =>
        dsimp only
        rw [ih i hmem hnone]
        rfl

lemma writeList_zero_read (L : List ℕ) (t : Fin 4) :
    writeList (fun _ => 0) 0 L t = L.getD (t : ℕ) 0 := by
  rw [writeList_read]
  by_cases h : (t : ℕ) < L.length
  · rw [if_pos ⟨Nat.zero_le _, by omega⟩, Nat.sub_zero]
  · rw [if_neg (by omega)]
    exact (List.getD_eq_default _ _ (by omega)).symm

lemma factProd_full {V : ℕ} (exps : Fin V → ℤ) (h0 : ∀ j, 0 ≤ exps j) :
    factProd exps (List.finRange V).reverse = fcColumnFact exps := by
  unfold factProd fcColumnFact
  rw [List.map_reverse, List.prod_reverse, ← List.ofFn_eq_map,
    List.prod_ofFn, Finset.prod_filter]
  refine Finset.prod_congr rfl fun j _ => ?_
  by_cases hp : 0 < exps j
  · rw [if_pos hp]
  · have hz : exps j = 0 := le_antisymm (not_lt.mp hp) (h0 j)
    rw [if_neg hp, hz]
    rfl

lemma flatLen_full {V : ℕ} (exps : Fin V → ℤ) :
    (flatOf exps (List.finRange V).reverse).length =
      ∑ j : Fin V, (exps j).toNat := by
  unfold flatOf
  rw [List.length_flatMap, List.map_reverse, List.sum_reverse,
    ← List.ofFn_eq_map, List.sum_ofFn]
  exact Finset.sum_congr rfl fun j _ => List.length_replicate _ _

lemma runColumn_ok {V : ℕ} (exps : Fin V → ℤ)
    (hr : ∀ j, 0 ≤ exps j ∧ exps j ≤ 4)
    (hs : (∑ j : Fin V, (exps j).toNat) ≤ 4) :
    runColumn exps =
      some ⟨fcColumnFact exps,
        fun t => (fcColumnIndices exps).getD (t : ℕ) 0,
        (fcColumnIndices exps).length⟩ := by
  unfold runColumn
  rw [runColAux_ok exps _ _ (fun j _ => hr j)
    (by dsimp only; rw [flatLen_full]; omega)]
  simp only [Option.some.injEq, FcState.mk.injEq]
  refine ⟨?_, ?_, ?_⟩
  · dsimp only
    rw [one_mul, factProd_full exps fun j => (hr j).1]
  · dsimp only
    funext t
    exact writeList_zero_read _ t
  · dsimp only
    rw [Nat.zero_add]
    rfl

/-- C5: for an exponent table whose column entries lie in `[0,4]` and sum
to at most `4` per column, `make9903` produces one record per basis
column in column order; for column `k` the variable indices are
traversed in descending order, each variable with exponent `e > 0`
contributes its 1-based index `e` times to the 4-slot buffer (unused
slots stay zero) and multiplies the factorial accumulator by the table
value for `e`, and the record value is
`coefficient[k] × factorial accumulator × 4.359813653`. -/
theorem make9903_builds_records {R V U : ℕ} (a : Anpass R V U)
    (coeffs : Fin U → ℚ)
    (hr : ∀ j i, 0 ≤ a.exponents j i ∧ a.exponents j i ≤ 4)
    (hs : ∀ i, (∑ j : Fin V, (a.exponents j i).toNat) ≤ 4) :
    a.make9903 coeffs =
      some ((List.finRange U).map fun i =>
        fcColumnRecord (fun j => a.exponents j i) (coeffs i)) := by
  unfold Anpass.make9903
  apply collectFcs_all_some
  intro i _
  rw [runColumn_ok _ (fun j => hr j i) (hs i)]
  rfl

/-- C9: on an in-contract basis (every column entry in `[0,4]`, column
sums at most `4`) every factorial-table and buffer access of `make9903`
is in bounds, so the panic branches are unreachable and a record list is
produced; and on any basis with a column holding an exponent above `4`,
or a non-negative column summing to more than `4`, `make9903` fails
outright rather than emitting a truncated record. -/
theorem make9903_bounds_safety {R V U R2 V2 U2 : ℕ} (a : Anpass R V U)
    (coeffs : Fin U → ℚ) (a2 : Anpass R2 V2 U2) (coeffs2 : Fin U2 → ℚ)
    (i2 : Fin U2)
    (hr : ∀ j i, 0 ≤ a.exponents j i ∧ a.exponents j i ≤ 4)
    (hs : ∀ i, (∑ j : Fin V, (a.exponents j i).toNat) ≤ 4)
    (hbad : (∃ j, 4 < a2.exponents j i2) ∨
      ((∀ j, 0 ≤ a2.exponents j i2) ∧
        4 < ∑ j : Fin V2, (a2.exponents j i2).toNat)) :
    (a.make9903 coeffs).isSome = true ∧ a2.make9903 coeffs2 = none := by
  constructor
  · unfold Anpass.make9903
    rw [collectFcs_all_some _
      (fun i => fcColumnRecord (fun j => a.exponents j i) (coeffs i)) _
      ?_]
    · rfl
    · intro i _
      rw [runColumn_ok _ (fun j => hr j i) (hs i)]
      rfl
  · unfold Anpass.make9903
    refine collectFcs_none _ _ i2 (List.mem_finRange i2) ?_
    have hcol : runColumn (fun j => a2.exponents j i2) = none := by
      unfold runColumn
      rcases hbad with ⟨j, hj⟩ | ⟨h0, hsum⟩
      · exact runColAux_none_of_bad_entry _ _ _
          ⟨j, List.mem_reverse.mpr (List.mem_finRange j), by omega⟩
      · refine runColAux_none_of_overflow _ _ _ (fun k _ => h0 k)
          (by dsimp only; omega) ?_
        dsimp only
        rw [flatLen_full]
        omega
    rw [hcol]
    rfl

/-- a 1-point, 1-variable, 1-term input used by the regression witness -/
def fitExample : Anpass 1 1 1 :=
  ⟨Matrix.of fun _ _ => 1, fun _ => 6, Matrix.of fun _ _ => 1, none⟩

/-- Witness for C4 at `fitExample`: the normal-equations matrix passes the
Cholesky pivot test and `fit` returns the stated solution. -/
theorem fit_solves_normal_equations_witness :
    cholOk 1 (fitExample.designMatrix.transpose * fitExample.designMatrix)
        = true ∧
      (fitExample.fit =
          Except.ok
            (Matrix.mulVec
              ((fitExample.designMatrix.transpose *
                  fitExample.designMatrix)⁻¹ *
                fitExample.designMatrix.transpose) fitExample.energies,
              fitExample.designMatrix) ∧
        (∀ i k, fitExample.designMatrix i k =
          ∏ j : Fin 1, fitExample.disps i j ^ fitExample.exponents j k) ∧
        (0 : ℚ) ^ (0 : ℤ) = 1) := by
  have hc : cholOk 1
      (fitExample.designMatrix.transpose * fitExample.designMatrix) = true := by
    rw [cholOk, cholOk]
    simp [Matrix.mul_apply, Anpass.designMatrix, fitExample,
      Fin.sum_univ_one, Fin.prod_univ_one]
  exact ⟨hc, fit_solves_normal_equations fitExample hc⟩

/-- a 2-variable, 1-column input (exponent column `(2,1)`) used by the
extractor witnesses -/
def fcExample : Anpass 1 2 1 :=
  ⟨Matrix.of fun _ _ => 0, fun _ => 0,
    Matrix.of fun j _ => if j = 0 then 2 else 1, none⟩

/-- Witness for C5 at `fcExample`: the column entries lie in `[0,4]`, sum
to `3 ≤ 4`, and `make9903` produces the specified records. -/
theorem make9903_builds_records_witness :
    (∀ j i, 0 ≤ fcExample.exponents j i ∧ fcExample.exponents j i ≤ 4) ∧
    (∀ i, (∑ j : Fin 2, (fcExample.exponents j i).toNat) ≤ 4) ∧
    fcExample.make9903 (fun _ => 1) =
      some ((List.finRange 1).map fun i =>
        fcColumnRecord (fun j => fcExample.exponents j i)
          ((fun _ => (1 : ℚ)) i)) := by
  have h1 : ∀ j i, 0 ≤ fcExample.exponents j i ∧
      fcExample.exponents j i ≤ 4 := by decide
  have h2 : ∀ i, (∑ j : Fin 2, (fcExample.exponents j i).toNat) ≤ 4 := by
    decide
  exact ⟨h1, h2, make9903_builds_records fcExample (fun _ => 1) h1 h2⟩

/-- a 1-variable, 1-column input whose only exponent is the
out-of-contract value `5`, used by the safety witness -/
def fcBadExample : Anpass 1 1 1 :=
  ⟨Matrix.of fun _ _ => 0, fun _ => 0, Matrix.of fun _ _ => 5, none⟩

/-- Witness for C9: `fcExample` is in contract and yields records, while
`fcBadExample` has a column exponent `5 > 4` and `make9903` fails on
it. -/
theorem make9903_bounds_safety_witness :
    (∀ j i, 0 ≤ fcExample.exponents j i ∧ fcExample.exponents j i ≤ 4) ∧
    (∀ i, (∑ j : Fin 2, (fcExample.exponents j i).toNat) ≤ 4) ∧
    ((∃ j, 4 < fcBadExample.exponents j 0) ∨
      ((∀ j, 0 ≤ fcBadExample.exponents j 0) ∧
        4 < ∑ j : Fin 1, (fcBadExample.exponents j 0).toNat)) ∧
    ((fcExample.make9903 fun _ => 1).isSome = true ∧
      fcBadExample.make9903 (fun _ => 1) = none) := by
  have h1 : ∀ j i, 0 ≤ fcExample.exponents j i ∧
      fcExample.exponents j i ≤ 4 := by decide
  have h2 : ∀ i, (∑ j : Fin 2, (fcExample.exponents j i).toNat) ≤ 4 := by
    decide
  have h3 : (∃ j, 4 < fcBadExample.exponents j 0) ∨
      ((∀ j, 0 ≤ fcBadExample.exponents j 0) ∧
        4 < ∑ j : Fin 1, (fcBadExample.exponents j 0).toNat) := by
    exact Or.inl ⟨0, by decide⟩
  exact ⟨h1, h2, h3,
    make9903_bounds_safety fcExample (fun _ => 1) fcBadExample (fun _ => 1)
      0 h1 h2 h3⟩

/-- a constant eigenvalue oracle used by the classification witness -/
def eigExample : Matrix (Fin 1) (Fin 1) ℚ → Option (List ℚ) :=
  fun _ => some [1, -1]

/-- Witness for C6 (amended) at the eigenvalue list `[1, -1]`: the
eigenvalue computation succeeds and the classification facts hold. -/
theorem characterize_classifies_witness :
    eigExample (Matrix.of fun _ _ => 0) = some [1, -1] ∧
    (characterize eigExample (Matrix.of fun _ _ => 0) =
        Except.ok (statKindOf [1, -1]) ∧
      signCount [1, -1] =
        (([1, -1] : List ℚ).map fun v =>
          if v < 0 then (-1 : ℤ) else if 0 < v then 1 else 0).sum ∧
      (statKindOf [1, -1] = StatKind.Max ↔
        signCount [1, -1] = -((([1, -1] : List ℚ).length : ℤ))) ∧
      (statKindOf [1, -1] = StatKind.Min ↔
        signCount [1, -1] = ((([1, -1] : List ℚ).length : ℤ)) ∧
          signCount [1, -1] ≠ -((([1, -1] : List ℚ).length : ℤ))) ∧
      (statKindOf [1, -1] = StatKind.Stat ↔
        signCount [1, -1] ≠ -((([1, -1] : List ℚ).length : ℤ)) ∧
          signCount [1, -1] ≠ ((([1, -1] : List ℚ).length : ℤ)))) :=
  ⟨rfl, characterize_classifies eigExample (Matrix.of fun _ _ => 0)
    [1, -1] rfl⟩
